import Mathlib

/-!
# Verification of the `builder-graph` conflict-detection core

Shallow embedding of the conflict-detection traversal and version-resolution
engine of `src/components/builder-graph/src/main.rs`:

* `splitSlash` models Rust's `str::split('/')` on the identifier's characters;
* `short_name` models `short_name` (the `assert!(parts.len() >= 2)` is
  modelled by returning `none`, the aborted run, when the assertion fails);
* `resolve_name` models `resolve_name`, with the external
  `PackageGraph::resolve` supplied as a function parameter;
* `check_package` / `check_deps` model the recursive `check_package`
  (`check_deps` is its inline `for dep in package.get_deps()` loop);
* `root_deps`, `walk_new_deps` and `do_check` model `do_check`
  (its direct-dependency loop, its `new_deps` loop, and the whole command);
* the external datastore call `get_job_graph_package(..).get_deps()` is
  supplied as a function `fetch : Ident → Option (List Ident)`;
* identifiers (Rust `String`s) are modelled by their character lists;
* printed output is modelled by the structured `ReportLine` list, covering
  the semantically relevant lines (version updates, conflicts, lookup
  failures); purely cosmetic headers and timing lines are not modelled.

Since the Rust recursion has no termination guarantee, the recursion is
fuel-indexed: `Res.spin` means the fuel ran out, and a run that yields
`Res.spin` for every fuel models a non-terminating execution. `Res.abort`
models a Rust panic (the failed assertion in `short_name`).
-/

/-- A package identifier string, modelled by its list of characters. -/
abbrev Ident := List Char

/-- Rust's `str::split('/')` on a character list: splits at every `'/'`,
keeping empty segments, and yields at least one segment. -/
def splitSlash : List Char → List (List Char)
  | [] => [[]]
  | c :: cs =>
    if c = '/' then [] :: splitSlash cs
    else
      match splitSlash cs with
      | [] => [[c]]
      | p :: ps => (c :: p) :: ps

/-- `short_name` from `main.rs`: split the identifier on `'/'`, assert at
least two parts, and join the first two with `'/'`. The failed assertion
(fewer than two parts) is modelled by `none`. -/
def short_name (ident : Ident) : Option Ident :=
  match splitSlash ident with
  | p0 :: p1 :: _ => some (p0 ++ '/' :: p1)
  | _ => none

/-- `resolve_name` from `main.rs`: if the name splits into exactly two parts,
query the graph's `resolve` (returning the input unchanged when the graph has
no entry); any other shape is returned unchanged without consulting the
graph. -/
def resolve_name (resolve : Ident → Option Ident) (name : Ident) : Ident :=
  if (splitSlash name).length = 2 then
    match resolve name with
    | some s => s
    | none => name
  else name

/-- The conflict ledger (`deps_map` in `main.rs`, a `HashMap<String, String>`),
modelled as an association list with unique keys maintained by the two
insertion operations below. -/
abbrev DepsMap := List (Ident × Ident)

/-- Hash-map lookup: the value of the first binding with the given key. -/
def mapLookup : DepsMap → Ident → Option Ident
  | [], _ => none
  | (k, v) :: rest, key => if k = key then some v else mapLookup rest key

/-- `HashMap::insert`: replace the binding for the key if present, else add
one. -/
def mapInsert (m : DepsMap) (key val : Ident) : DepsMap :=
  match m with
  | [] => [(key, val)]
  | (k, v) :: rest =>
    if k = key then (k, val) :: rest else (k, v) :: mapInsert rest key val

/-- `HashMap::entry(key).or_insert_with(|| val)`: return the map after the
call together with the value the entry holds afterwards (the existing value
if the key was present, `val` otherwise). -/
def mapOrInsert (m : DepsMap) (key val : Ident) : DepsMap × Ident :=
  match mapLookup m key with
  | some v => (m, v)
  | none => (m ++ [(key, val)], val)

/-- One semantically relevant output line of the `check` command. -/
inductive ReportLine where
  /-- `"{dep} -> {dep_latest}"` printed for a root direct dependency. -/
  | update (dep latest : Ident)
  /-- `"Conflict: {ident}"` followed by the ledger entry and the dep. -/
  | conflict (ident entry dep : Ident)
  /-- `"No matching package found for {ident}"` (leaf fetch failure). -/
  | noMatchFor (ident : Ident)
  /-- `"No matching package found"` (root fetch failure). -/
  | noMatch
  deriving DecidableEq, Repr

/-- Outcome of a (fuel-indexed) run: normal completion, a Rust panic
(failed assertion), or fuel exhaustion. -/
inductive Res (α : Type) where
  | ok : α → Res α
  | abort : Res α
  | spin : Res α
  deriving DecidableEq, Repr

/-- The `for dep in package.get_deps()` loop body of `check_package`,
parametrised by the recursive call `cp` (the `check_package` at the current
fuel). For each dependency passing the filter: compute its short name
(asserting well-formedness), `or_insert` it into the ledger, report a
conflict when the ledger's entry differs, and recurse into the raw declared
dependency identifier. -/
def check_deps (F : Ident) (cp : DepsMap → Ident → Res (DepsMap × List ReportLine))
    (ident : Ident) : DepsMap → List Ident → Res (DepsMap × List ReportLine)
  | m, [] => Res.ok (m, [])
  | m, dep :: rest =>
    if F.isPrefixOf dep then
      match short_name dep with
      | none => Res.abort
      | some name =>
        let p := mapOrInsert m name dep
        let confl : List ReportLine :=
          if p.2 ≠ dep then [ReportLine.conflict ident p.2 dep] else []
        match cp p.1 dep with
        | Res.abort => Res.abort
        | Res.spin => Res.spin
        | Res.ok (m2, r2) =>
          match check_deps F cp ident m2 rest with
          | Res.abort => Res.abort
          | Res.spin => Res.spin
          | Res.ok (m3, r3) => Res.ok (m3, confl ++ r2 ++ r3)
    else check_deps F cp ident m rest

/-- `check_package` from `main.rs`, fuel-indexed: fetch the package's
dependencies (reporting `"No matching package found for .."` and returning on
failure) and run the dependency loop, which recurses at one fuel less. -/
def check_package (fetch : Ident → Option (List Ident)) (F : Ident) :
    Nat → DepsMap → Ident → Res (DepsMap × List ReportLine)
  | 0, _, _ => Res.spin
  | fuel + 1, m, ident =>
    match fetch ident with
    | none => Res.ok (m, [ReportLine.noMatchFor ident])
    | some deps =>
      check_deps F (fun m' i => check_package fetch F fuel m' i) ident m deps

/-- The direct-dependency loop of `do_check`: for each root dependency
passing the filter, compute its short name, resolve it to the latest
identifier, `insert` that candidate into the ledger, push it onto `new_deps`
and print the `"{dep} -> {dep_latest}"` line. Returns the ledger, the
`new_deps` list and the report lines. -/
def root_deps (resolve : Ident → Option Ident) (F : Ident) :
    List Ident → DepsMap → Res (DepsMap × List Ident × List ReportLine)
  | [], m => Res.ok (m, [], [])
  | dep :: rest, m =>
    if F.isPrefixOf dep then
      match short_name dep with
      | none => Res.abort
      | some dep_name =>
        let dep_latest := resolve_name resolve dep_name
        match root_deps resolve F rest (mapInsert m dep_name dep_latest) with
        | Res.abort => Res.abort
        | Res.spin => Res.spin
        | Res.ok (m2, nd, lines) =>
          Res.ok (m2, dep_latest :: nd, ReportLine.update dep dep_latest :: lines)
    else root_deps resolve F rest m

/-- The `for new_dep in new_deps` loop of `do_check`: run `check_package` on
each newly resolved candidate in order, threading the shared ledger. -/
def walk_new_deps (fetch : Ident → Option (List Ident)) (F : Ident) (fuel : Nat) :
    DepsMap → List Ident → Res (DepsMap × List ReportLine)
  | m, [] => Res.ok (m, [])
  | m, d :: rest =>
    match check_package fetch F fuel m d with
    | Res.abort => Res.abort
    | Res.spin => Res.spin
    | Res.ok (m2, r2) =>
      match walk_new_deps fetch F fuel m2 rest with
      | Res.abort => Res.abort
      | Res.spin => Res.spin
      | Res.ok (m3, r3) => Res.ok (m3, r2 ++ r3)

/-- `do_check` from `main.rs`: resolve the root name, fetch its package
(reporting `"No matching package found"` on failure), process the direct
dependencies, then walk every newly resolved candidate with the shared
ledger. -/
def do_check (fetch : Ident → Option (List Ident)) (resolve : Ident → Option Ident)
    (fuel : Nat) (name : Ident) (F : Ident) : Res (DepsMap × List ReportLine) :=
  let ident := resolve_name resolve name
  match fetch ident with
  | none => Res.ok ([], [ReportLine.noMatch])
  | some deps =>
    match root_deps resolve F deps [] with
    | Res.abort => Res.abort
    | Res.spin => Res.spin
    | Res.ok (m, new_deps, lines) =>
      match walk_new_deps fetch F fuel m new_deps with
      | Res.abort => Res.abort
      | Res.spin => Res.spin
      | Res.ok (m', lines') => Res.ok (m', lines ++ lines')

/-- Root of the acyclic two-node graph used to witness termination. -/
def rootW4 : Ident := "d/a/1/1".data

/-- Leaf of the acyclic two-node graph used to witness termination. -/
def leafW4 : Ident := "d/b/1/1".data

/-- Dependency fetcher of the acyclic two-node graph. -/
def fetchW4 (i : Ident) : Option (List Ident) :=
  if i = rootW4 then some [leafW4]
  else if i = leafW4 then some []
  else none

/-- A rank function witnessing that the acyclic two-node graph has no
cycle: it decreases along every dependency edge. -/
def rankW4 (i : Ident) : Nat := if i = leafW4 then 0 else 1

/-- Root of the uniform concrete graph (every edge for `g/lib` carries the
identifier the resolver also picks). -/
def gRootW : Ident := "g/app/1/1".data

/-- The single lib version of the uniform concrete graph. -/
def gLibW : Ident := "g/lib/1/1".data

/-- Dependency fetcher of the uniform concrete graph. -/
def fetchC3W (i : Ident) : Option (List Ident) :=
  if i = gRootW then some [gLibW]
  else if i = gLibW then some []
  else none

/-- Identity resolver of the uniform concrete graph: it agrees with the one
declared edge. -/
def resolveC3W (s : Ident) : Option Ident :=
  if s = "g/lib".data then some gLibW else none

/-- A packages graph for the C6 witness: the root has a failing dependency
followed by a healthy sibling. -/
def fetchC6 (i : Ident) : Option (List Ident) :=
  if i = "e/r/1/1".data then some ["e/x/1/1".data, "e/y/1/1".data]
  else if i = "e/y/1/1".data then some []
  else none

/-- A report line attributed to a dependency edge inside the walker: either
a conflict whose triggering dependency passes the filter, or a fetch-failure
line for an identifier passing the filter. -/
def dep_line (F : Ident) (line : ReportLine) : Prop :=
  (∃ a b d, line = ReportLine.conflict a b d ∧ F.isPrefixOf d = true) ∨
  (∃ j, line = ReportLine.noMatchFor j ∧ F.isPrefixOf j = true)

/-- What C5 guarantees of every line of a full report `r`: update and
conflict lines are attributed to filter-passing dependency edges, a
fetch-failure line names either a filter-passing identifier or one of the
root candidates reported (as an update line) in the same report, and the
root-failure line concerns no dependency at all. -/
def line_filtered (F : Ident) (r : List ReportLine) : ReportLine → Prop
  | ReportLine.update dep _ => F.isPrefixOf dep = true
  | ReportLine.conflict _ _ dep => F.isPrefixOf dep = true
  | ReportLine.noMatchFor j =>
      F.isPrefixOf j = true ∨ ∃ dep l, ReportLine.update dep l ∈ r ∧ j = l
  | ReportLine.noMatch => True

/-- The conflict lines of a report attributed to the given ShortName: those
whose triggering dependency has that ShortName. -/
def conflicts_for (S : Ident) (r : List ReportLine) : List ReportLine :=
  r.filter fun line =>
    match line with
    | ReportLine.conflict _ _ d => short_name d == some S
    | _ => false

/-! ## Concrete package graphs used as explicit inputs -/

/-- Root identifier of the first concrete graph. -/
def rootC1 : Ident := "a/app/1/1".data

/-- Intermediate package of the first concrete graph. -/
def midC1 : Ident := "a/mid/1/1".data

/-- The raw declared dependency on the lib lineage in the first graph. -/
def rawLibC1 : Ident := "a/lib/1/1".data

/-- The latest published version of the lib lineage in the first graph. -/
def latestLibC1 : Ident := "a/lib/2/1".data

/-- Dependency fetcher of the first concrete graph: the root depends on the
intermediate package, which depends on the old lib version; the old lib
version has no dependencies. -/
def fetchC1 (i : Ident) : Option (List Ident) :=
  if i = rootC1 then some [midC1]
  else if i = midC1 then some [rawLibC1]
  else if i = rawLibC1 then some []
  else none

/-- Identity resolver of the first concrete graph: the lib lineage resolves
to its newer version 2/1, not to the declared 1/1. -/
def resolveC1 (s : Ident) : Option Ident :=
  if s = "a/mid".data then some midC1
  else if s = "a/lib".data then some latestLibC1
  else none

/-- Root identifier of the second concrete graph. -/
def rootC3 : Ident := "b/app/1/1".data

/-- The single identifier ever declared as a dependency for the lib lineage
in the second graph. -/
def rawC3 : Ident := "b/lib/1/1".data

/-- The latest published version of the lib lineage in the second graph. -/
def latC3 : Ident := "b/lib/2/1".data

/-- Dependency fetcher of the second concrete graph: both the root and the
latest lib version declare exactly the same dependency `b/lib/1/1`. -/
def fetchC3 (i : Ident) : Option (List Ident) :=
  if i = rootC3 then some [rawC3]
  else if i = latC3 then some [rawC3]
  else if i = rawC3 then some []
  else none

/-- Identity resolver of the second concrete graph. -/
def resolveC3 (s : Ident) : Option Ident :=
  if s = "b/lib".data then some latC3 else none

/-- Self-dependent package of the cyclic concrete graph. -/
def cycC4 : Ident := "c/c/1/1".data

/-- Dependency fetcher of the cyclic concrete graph: one package depending
on itself. -/
def fetchC4 (i : Ident) : Option (List Ident) :=
  if i = cycC4 then some [cycC4] else none

/-! ## Basic facts about `splitSlash` -/

theorem splitSlash_ne_nil (cs : List Char) : splitSlash cs ≠ [] := by
  induction cs with
  | nil => simp [splitSlash]
  | cons c cs ih =>
    by_cases hc : c = '/'
    · simp [splitSlash, hc]
    · simp only [splitSlash, if_neg hc]
      cases h : splitSlash cs with
      | nil => simp
      | cons p ps => simp

theorem splitSlash_of_not_mem {cs : List Char} (h : '/' ∉ cs) : splitSlash cs = [cs] := by
  induction cs with
  | nil => rfl
  | cons c cs ih =>
    have hc : ¬ c = '/' := by rintro rfl; exact h (List.mem_cons_self _ _)
    have hcs : '/' ∉ cs := fun hh => h (List.mem_cons_of_mem c hh)
    simp [splitSlash, if_neg hc, ih hcs]

theorem two_le_length_splitSlash {cs : List Char} (h : '/' ∈ cs) :
    2 ≤ (splitSlash cs).length := by
  induction cs with
  | nil => cases h
  | cons c cs ih =>
    by_cases hc : c = '/'
    · simp only [splitSlash, if_pos hc, List.length_cons]
      have h1 : 1 ≤ (splitSlash cs).length := by
        cases hh : splitSlash cs with
        | nil => exact absurd hh (splitSlash_ne_nil cs)
        | cons a l => simp
      omega
    · have hcs : '/' ∈ cs := by
        rcases List.mem_cons.mp h with h1 | h2
        · exact absurd h1.symm hc
        · exact h2
      have h2 := ih hcs
      simp only [splitSlash, if_neg hc]
      cases hh : splitSlash cs with
      | nil => exact absurd hh (splitSlash_ne_nil cs)
      | cons p ps =>
        rw [hh] at h2
        simpa using h2

/-! ## Counterexample runs on the concrete graphs -/

/-- C1 counterexample: in the first concrete graph, the dependency edge from
`a/mid/1/1` to `a/lib/1/1` is considered during the walk (at recursion depth
one, under the empty filter), yet the identifier recorded in the ledger as
the candidate for its ShortName `a/lib` is the raw declared `a/lib/1/1`,
although resolving `a/lib` through the Identity Resolver yields
`a/lib/2/1`. -/
theorem c1_counterexample :
    do_check fetchC1 resolveC1 5 rootC1 [] =
      Res.ok ([("a/mid".data, midC1), ("a/lib".data, rawLibC1)],
        [ReportLine.update midC1 midC1]) ∧
    fetchC1 midC1 = some [rawLibC1] ∧
    short_name rawLibC1 = some "a/lib".data ∧
    resolve_name resolveC1 "a/lib".data = latestLibC1 ∧
    rawLibC1 ≠ latestLibC1 :=
  ⟨by decide, by decide, by decide, by decide, by decide⟩

/-- C3 counterexample: in the second concrete graph, the only identifier
ever declared as a dependency for the ShortName `b/lib` anywhere in the
closure is `b/lib/1/1` (which, being a full identifier, resolves to
itself), yet the run reports a conflict for that ShortName, because the
root-level candidate recorded for `b/lib` is the resolver's latest
`b/lib/2/1`. -/
theorem c3_counterexample :
    fetchC3 rootC3 = some [rawC3] ∧
    fetchC3 latC3 = some [rawC3] ∧
    fetchC3 rawC3 = some [] ∧
    resolve_name resolveC3 rawC3 = rawC3 ∧
    short_name rawC3 = some "b/lib".data ∧
    do_check fetchC3 resolveC3 5 rootC3 [] =
      Res.ok ([("b/lib".data, latC3)],
        [ReportLine.update rawC3 latC3, ReportLine.conflict latC3 latC3 rawC3]) ∧
    conflicts_for "b/lib".data
        [ReportLine.update rawC3 latC3, ReportLine.conflict latC3 latC3 rawC3] =
      [ReportLine.conflict latC3 latC3 rawC3] :=
  ⟨by decide, by decide, by decide, by decide, by decide, by decide, by decide⟩

/-! ## Association-list lemmas for the conflict ledger -/

theorem mapLookup_mem {m : DepsMap} {k v : Ident} (h : mapLookup m k = some v) :
    (k, v) ∈ m := by
  induction m with
  | nil => simp [mapLookup] at h
  | cons p rest ih =>
    obtain ⟨k', v'⟩ := p
    by_cases hk : k' = k
    · rw [mapLookup, if_pos hk] at h
      injection h with h
      subst hk; subst h
      exact List.mem_cons_self _ _
    · rw [mapLookup, if_neg hk] at h
      exact List.mem_cons_of_mem _ (ih h)

theorem mapLookup_append_some {m : DepsMap} {k v : Ident} (l : DepsMap)
    (h : mapLookup m k = some v) : mapLookup (m ++ l) k = some v := by
  induction m with
  | nil => simp [mapLookup] at h
  | cons p rest ih =>
    obtain ⟨k', v'⟩ := p
    by_cases hk : k' = k
    · rw [mapLookup, if_pos hk] at h
      rw [List.cons_append, mapLookup, if_pos hk]
      exact h
    · rw [mapLookup, if_neg hk] at h
      rw [List.cons_append, mapLookup, if_neg hk]
      exact ih h

theorem mapOrInsert_lookup_pres {m : DepsMap} {k v : Ident} (key val : Ident)
    (h : mapLookup m k = some v) : mapLookup (mapOrInsert m key val).1 k = some v := by
  cases hl : mapLookup m key with
  | some w => simpa [mapOrInsert, hl] using h
  | none =>
    simp only [mapOrInsert, hl]
    exact mapLookup_append_some _ h

theorem mapOrInsert_mem {m : DepsMap} {key val : Ident} {p : Ident × Ident}
    (h : p ∈ (mapOrInsert m key val).1) : p ∈ m ∨ p = (key, val) := by
  cases hl : mapLookup m key with
  | some w =>
    simp only [mapOrInsert, hl] at h
    exact Or.inl h
  | none =>
    simp only [mapOrInsert, hl] at h
    rcases List.mem_append.mp h with h1 | h2
    · exact Or.inl h1
    · simp only [List.mem_singleton] at h2
      exact Or.inr h2

theorem mapOrInsert_of_lookup {m : DepsMap} {key v : Ident} (val : Ident)
    (h : mapLookup m key = some v) : mapOrInsert m key val = (m, v) := by
  simp [mapOrInsert, h]

theorem mapInsert_lookup (m : DepsMap) (k v key : Ident) :
    mapLookup (mapInsert m k v) key = if k = key then some v else mapLookup m key := by
  induction m with
  | nil => simp [mapInsert, mapLookup]
  | cons p rest ih =>
    obtain ⟨k', v'⟩ := p
    by_cases hk : k' = k
    · subst hk
      simp only [mapInsert, if_pos rfl]
      by_cases hkey : k' = key
      · subst hkey; simp [mapLookup]
      · simp [mapLookup, hkey]
    · simp only [mapInsert, if_neg hk]
      by_cases hkey : k' = key
      · have hkk : ¬ k = key := by rintro rfl; exact hk hkey
        simp [mapLookup, hkey, hkk]
      · simp [mapLookup, hkey, ih]

theorem mapInsert_mem {m : DepsMap} {k v : Ident} {p : Ident × Ident}
    (h : p ∈ mapInsert m k v) : p ∈ m ∨ p = (k, v) := by
  induction m with
  | nil =>
    simp only [mapInsert, List.mem_singleton] at h
    exact Or.inr h
  | cons q rest ih =>
    obtain ⟨k', v'⟩ := q
    by_cases hk : k' = k
    · subst hk
      simp only [mapInsert, if_pos rfl] at h
      rcases List.mem_cons.mp h with h1 | h2
      · exact Or.inr h1
      · exact Or.inl (List.mem_cons_of_mem _ h2)
    · simp only [mapInsert, if_neg hk] at h
      rcases List.mem_cons.mp h with h1 | h2
      · exact Or.inl (h1 ▸ List.mem_cons_self _ _)
      · rcases ih h2 with h3 | h3
        · exact Or.inl (List.mem_cons_of_mem _ h3)
        · exact Or.inr h3

/-! ## Ledger preservation through the walker -/

theorem check_deps_pres {F : Ident} {cp : DepsMap → Ident → Res (DepsMap × List ReportLine)}
    (hcp : ∀ m i m' r, cp m i = Res.ok (m', r) →
      ∀ k v, mapLookup m k = some v → mapLookup m' k = some v)
    {ident : Ident} :
    ∀ deps m m' r, check_deps F cp ident m deps = Res.ok (m', r) →
      ∀ k v, mapLookup m k = some v → mapLookup m' k = some v := by
  intro deps
  induction deps with
  | nil =>
    intro m m' r h k v hk
    simp only [check_deps, Res.ok.injEq, Prod.mk.injEq] at h
    obtain ⟨hm, -⟩ := h
    subst hm
    exact hk
  | cons dep rest ih =>
    intro m m' r h k v hk
    by_cases hpre : F.isPrefixOf dep = true
    · simp only [check_deps, if_pos hpre] at h
      cases hsn : short_name dep with
      | none => simp [hsn] at h
      | some nm =>
        simp only [hsn] at h
        cases hres : cp (mapOrInsert m nm dep).1 dep with
        | abort => simp [hres] at h
        | spin => simp [hres] at h
        | ok pr =>
          obtain ⟨m2, r2⟩ := pr
          simp only [hres] at h
          cases hrest : check_deps F cp ident m2 rest with
          | abort => simp [hrest] at h
          | spin => simp [hrest] at h
          | ok pr2 =>
            obtain ⟨m3, r3⟩ := pr2
            simp only [hrest, Res.ok.injEq, Prod.mk.injEq] at h
            obtain ⟨hm, -⟩ := h
            subst hm
            exact ih m2 m3 r3 hrest k v
              (hcp _ _ _ _ hres k v (mapOrInsert_lookup_pres nm dep hk))
    · simp only [check_deps, if_neg hpre] at h
      exact ih m m' r h k v hk

theorem check_package_pres (fetch : Ident → Option (List Ident)) (F : Ident) :
    ∀ fuel m i m' r, check_package fetch F fuel m i = Res.ok (m', r) →
      ∀ k v, mapLookup m k = some v → mapLookup m' k = some v := by
  intro fuel
  induction fuel with
  | zero =>
    intro m i m' r h
    simp [check_package] at h
  | succ n ih =>
    intro m i m' r h k v hk
    cases hf : fetch i with
    | none =>
      simp only [check_package, hf, Res.ok.injEq, Prod.mk.injEq] at h
      obtain ⟨hm, -⟩ := h
      subst hm
      exact hk
    | some deps =>
      simp only [check_package, hf] at h
      exact check_deps_pres (fun m0 i0 m1 r1 h0 => ih m0 i0 m1 r1 h0)
        deps m m' r h k v hk

/-! ## The conflict report for a repeated ShortName -/

theorem check_deps_conflict {F : Ident}
    {cp : DepsMap → Ident → Res (DepsMap × List ReportLine)}
    (hcp : ∀ m i m' r, cp m i = Res.ok (m', r) →
      ∀ k v, mapLookup m k = some v → mapLookup m' k = some v)
    {ident S A dep : Ident} (hpre : F.isPrefixOf dep = true)
    (hsn : short_name dep = some S) (hne : dep ≠ A) :
    ∀ deps m m' r, dep ∈ deps → mapLookup m S = some A →
      check_deps F cp ident m deps = Res.ok (m', r) →
      ReportLine.conflict ident A dep ∈ r := by
  intro deps
  induction deps with
  | nil => intro m m' r hmem; cases hmem
  | cons d rest ih =>
    intro m m' r hmem hA h
    rcases List.mem_cons.mp hmem with rfl | hmem'
    · -- the head is the repeated dependency: the conflict is emitted here
      have hAd : ¬ ((mapOrInsert m S dep).2 = dep) := by
        rw [mapOrInsert_of_lookup dep hA]
        exact fun hh => hne hh.symm
      simp only [check_deps, if_pos hpre, hsn] at h
      rw [if_pos hAd] at h
      rw [mapOrInsert_of_lookup dep hA] at h
      cases hres : cp m dep with
      | abort => simp [hres] at h
      | spin => simp [hres] at h
      | ok pr =>
        obtain ⟨m2, r2⟩ := pr
        simp only [hres] at h
        cases hrest : check_deps F cp ident m2 rest with
        | abort => simp [hrest] at h
        | spin => simp [hrest] at h
        | ok pr2 =>
          obtain ⟨m3, r3⟩ := pr2
          simp only [hrest, Res.ok.injEq, Prod.mk.injEq] at h
          obtain ⟨-, hr⟩ := h
          subst hr
          simp
    · -- the repeated dependency is further along the list
      by_cases hpd : F.isPrefixOf d = true
      · simp only [check_deps, if_pos hpd] at h
        cases hsd : short_name d with
        | none => simp [hsd] at h
        | some nd =>
          simp only [hsd] at h
          cases hres : cp (mapOrInsert m nd d).1 d with
          | abort => simp [hres] at h
          | spin => simp [hres] at h
          | ok pr =>
            obtain ⟨m2, r2⟩ := pr
            simp only [hres] at h
            cases hrest : check_deps F cp ident m2 rest with
            | abort => simp [hrest] at h
            | spin => simp [hrest] at h
            | ok pr2 =>
              obtain ⟨m3, r3⟩ := pr2
              simp only [hrest, Res.ok.injEq, Prod.mk.injEq] at h
              obtain ⟨-, hr⟩ := h
              subst hr
              have hA2 := hcp _ _ _ _ hres S A (mapOrInsert_lookup_pres nd d hA)
              exact List.mem_append.mpr (Or.inr (ih m2 m3 r3 hmem' hA2 hrest))
      · simp only [check_deps, if_neg hpd] at h
        exact ih m m' r hmem' hA h

/-! ## First-write-wins through the root direct-dependency loop -/

theorem root_deps_canonical (resolve : Ident → Option Ident) (F : Ident) :
    ∀ deps m m' nd lines, root_deps resolve F deps m = Res.ok (m', nd, lines) →
      (∀ p ∈ m, p.2 = resolve_name resolve p.1) →
      (∀ k v, mapLookup m k = some v → mapLookup m' k = some v) ∧
      (∀ p ∈ m', p.2 = resolve_name resolve p.1) := by
  intro deps
  induction deps with
  | nil =>
    intro m m' nd lines h hcan
    simp only [root_deps, Res.ok.injEq, Prod.mk.injEq] at h
    obtain ⟨hm, -⟩ := h
    subst hm
    exact ⟨fun k v hk => hk, hcan⟩
  | cons dep rest ih =>
    intro m m' nd lines h hcan
    by_cases hpre : F.isPrefixOf dep = true
    · simp only [root_deps, if_pos hpre] at h
      cases hsn : short_name dep with
      | none => simp [hsn] at h
      | some nm =>
        simp only [hsn] at h
        cases hrest : root_deps resolve F rest (mapInsert m nm (resolve_name resolve nm)) with
        | abort => simp [hrest] at h
        | spin => simp [hrest] at h
        | ok tr =>
          obtain ⟨m2, nd2, lines2⟩ := tr
          simp only [hrest, Res.ok.injEq, Prod.mk.injEq] at h
          obtain ⟨hm, -⟩ := h
          subst hm
          have hcan1 : ∀ p ∈ mapInsert m nm (resolve_name resolve nm),
              p.2 = resolve_name resolve p.1 := by
            intro p hp
            rcases mapInsert_mem hp with h1 | h1
            · exact hcan p h1
            · rw [h1]
          obtain ⟨hpres2, hcan2⟩ := ih _ m2 nd2 lines2 hrest hcan1
          refine ⟨?_, hcan2⟩
          intro k v hk
          apply hpres2
          rw [mapInsert_lookup]
          by_cases hkk : nm = k
          · subst hkk
            have hv := hcan (nm, v) (mapLookup_mem hk)
            simp only at hv
            rw [if_pos rfl, hv]
          · rw [if_neg hkk]
            exact hk
    · simp only [root_deps, if_neg hpre] at h
      exact ih m m' nd lines h hcan

/-! ## C2: the first-write-wins ledger -/

/-- C2: during one `check` invocation the ledger is first-write-wins. In the
recursive walker, any existing binding `S maps-to A` survives every later
step unchanged; and whenever a dependency edge with ShortName `S` and a
different identifier `B` is met while `S` is bound to `A`, the conflict
pairing `A` and `B` is reported. In the root loop, a later insertion never
changes an observable binding either: starting from any ledger whose
bindings are resolver-canonical (as the empty initial ledger is, and as the
root loop keeps them), re-insertion rewrites a binding with its own value. -/
theorem c2_first_write_wins :
    (∀ (fetch : Ident → Option (List Ident)) (F : Ident) fuel m i m' r,
        check_package fetch F fuel m i = Res.ok (m', r) →
        ∀ S A, mapLookup m S = some A → mapLookup m' S = some A) ∧
    (∀ (fetch : Ident → Option (List Ident)) (F : Ident) fuel m i ds m' r S A dep,
        check_package fetch F (fuel + 1) m i = Res.ok (m', r) →
        fetch i = some ds → mapLookup m S = some A →
        dep ∈ ds → F.isPrefixOf dep = true → short_name dep = some S → dep ≠ A →
        ReportLine.conflict i A dep ∈ r) ∧
    (∀ (resolve : Ident → Option Ident) (F : Ident) deps m m' nd lines,
        root_deps resolve F deps m = Res.ok (m', nd, lines) →
        (∀ p ∈ m, p.2 = resolve_name resolve p.1) →
        ∀ S A, mapLookup m S = some A → mapLookup m' S = some A) := by
  refine ⟨?_, ?_, ?_⟩
  · intro fetch F fuel m i m' r h S A hA
    exact check_package_pres fetch F fuel m i m' r h S A hA
  · intro fetch F fuel m i ds m' r S A dep h hf hA hmem hpre hsn hne
    simp only [check_package, hf] at h
    exact check_deps_conflict
      (fun m0 i0 m1 r1 h0 => check_package_pres fetch F fuel m0 i0 m1 r1 h0)
      hpre hsn hne ds m m' r hmem hA h
  · intro resolve F deps m m' nd lines h hcan S A hA
    exact (root_deps_canonical resolve F deps m m' nd lines h hcan).1 S A hA

/-- Witness for C2 on the second concrete graph: with `b/lib` bound to
`b/lib/2/1`, walking `b/lib/2/1` (which declares `b/lib/1/1`) keeps the
binding and reports the conflict pairing the two; and a root loop started
on a canonical ledger keeps the pre-existing binding for `q/q`. -/
theorem c2_first_write_wins_witness :
    mapLookup [("b/lib".data, latC3)] "b/lib".data = some latC3 ∧
    ReportLine.conflict latC3 latC3 rawC3 ∈
      [ReportLine.conflict latC3 latC3 rawC3] ∧
    mapLookup [("q/q".data, "q/q".data), ("b/lib".data, latC3)] "q/q".data =
      some "q/q".data := by
  refine ⟨?_, ?_, ?_⟩
  · exact c2_first_write_wins.1 fetchC3 [] 5 [("b/lib".data, latC3)] latC3
      [("b/lib".data, latC3)] [ReportLine.conflict latC3 latC3 rawC3]
      (by decide) "b/lib".data latC3 (by decide)
  · exact c2_first_write_wins.2.1 fetchC3 [] 4 [("b/lib".data, latC3)] latC3
      [rawC3] [("b/lib".data, latC3)] [ReportLine.conflict latC3 latC3 rawC3]
      "b/lib".data latC3 rawC3 (by decide) (by decide) (by decide)
      (by decide) (by decide) (by decide) (by decide)
  · exact c2_first_write_wins.2.2 resolveC3 [] [rawC3]
      [("q/q".data, "q/q".data)]
      [("q/q".data, "q/q".data), ("b/lib".data, latC3)] [latC3]
      [ReportLine.update rawC3 latC3] (by decide) (by decide)
      "q/q".data "q/q".data (by decide)

/-! ## Provenance of ledger entries created by the walker -/

theorem check_deps_prov {F : Ident} {cp : DepsMap → Ident → Res (DepsMap × List ReportLine)}
    (E : Ident × Ident → Prop)
    (hcp : ∀ m i m' r, cp m i = Res.ok (m', r) → ∀ p ∈ m', p ∈ m ∨ E p)
    {ident : Ident} :
    ∀ deps m m' r,
      (∀ d ∈ deps, F.isPrefixOf d = true → ∀ nm, short_name d = some nm → E (nm, d)) →
      check_deps F cp ident m deps = Res.ok (m', r) → ∀ p ∈ m', p ∈ m ∨ E p := by
  intro deps
  induction deps with
  | nil =>
    intro m m' r hd h p hp
    simp only [check_deps, Res.ok.injEq, Prod.mk.injEq] at h
    obtain ⟨hm, -⟩ := h
    subst hm
    exact Or.inl hp
  | cons dep rest ih =>
    intro m m' r hd h p hp
    by_cases hpre : F.isPrefixOf dep = true
    · simp only [check_deps, if_pos hpre] at h
      cases hsn : short_name dep with
      | none => simp [hsn] at h
      | some nm =>
        simp only [hsn] at h
        cases hres : cp (mapOrInsert m nm dep).1 dep with
        | abort => simp [hres] at h
        | spin => simp [hres] at h
        | ok pr =>
          obtain ⟨m2, r2⟩ := pr
          simp only [hres] at h
          cases hrest : check_deps F cp ident m2 rest with
          | abort => simp [hrest] at h
          | spin => simp [hrest] at h
          | ok pr2 =>
            obtain ⟨m3, r3⟩ := pr2
            simp only [hrest, Res.ok.injEq, Prod.mk.injEq] at h
            obtain ⟨hm, -⟩ := h
            subst hm
            have hdr : ∀ d ∈ rest, F.isPrefixOf d = true →
                ∀ nm', short_name d = some nm' → E (nm', d) :=
              fun d hdm => hd d (List.mem_cons_of_mem _ hdm)
            rcases ih m2 m3 r3 hdr hrest p hp with h2 | h2
            · rcases hcp _ _ _ _ hres p h2 with h3 | h3
              · rcases mapOrInsert_mem h3 with h4 | h4
                · exact Or.inl h4
                · subst h4
                  exact Or.inr (hd dep (List.mem_cons_self _ _) hpre nm hsn)
              · exact Or.inr h3
            · exact Or.inr h2
    · simp only [check_deps, if_neg hpre] at h
      have hdr : ∀ d ∈ rest, F.isPrefixOf d = true →
          ∀ nm', short_name d = some nm' → E (nm', d) :=
        fun d hdm => hd d (List.mem_cons_of_mem _ hdm)
      exact ih m m' r hdr h p hp

theorem check_package_prov (fetch : Ident → Option (List Ident)) (F : Ident) :
    ∀ fuel m i m' r, check_package fetch F fuel m i = Res.ok (m', r) →
      ∀ p ∈ m', p ∈ m ∨
        ∃ src ds, fetch src = some ds ∧ p.2 ∈ ds ∧ F.isPrefixOf p.2 = true ∧
          short_name p.2 = some p.1 := by
  intro fuel
  induction fuel with
  | zero =>
    intro m i m' r h
    simp [check_package] at h
  | succ n ih =>
    intro m i m' r h p hp
    cases hf : fetch i with
    | none =>
      simp only [check_package, hf, Res.ok.injEq, Prod.mk.injEq] at h
      obtain ⟨hm, -⟩ := h
      subst hm
      exact Or.inl hp
    | some deps =>
      simp only [check_package, hf] at h
      refine check_deps_prov _ (fun m0 i0 m1 r1 h0 => ih m0 i0 m1 r1 h0)
        deps m m' r ?_ h p hp
      intro d hdm hdpre nm hdsn
      exact ⟨i, deps, hf, hdm, hdpre, hdsn⟩

/-! ## Shape of the root loop's report lines and new-deps list -/

theorem root_deps_lines (resolve : Ident → Option Ident) (F : Ident) :
    ∀ deps m m' nd lines, root_deps resolve F deps m = Res.ok (m', nd, lines) →
      ∀ line ∈ lines, ∃ dep sn, F.isPrefixOf dep = true ∧ short_name dep = some sn ∧
        line = ReportLine.update dep (resolve_name resolve sn) := by
  intro deps
  induction deps with
  | nil =>
    intro m m' nd lines h line hline
    simp only [root_deps, Res.ok.injEq, Prod.mk.injEq] at h
    obtain ⟨-, -, hl⟩ := h
    subst hl
    cases hline
  | cons dep rest ih =>
    intro m m' nd lines h line hline
    by_cases hpre : F.isPrefixOf dep = true
    · simp only [root_deps, if_pos hpre] at h
      cases hsn : short_name dep with
      | none => simp [hsn] at h
      | some nm =>
        simp only [hsn] at h
        cases hrest : root_deps resolve F rest (mapInsert m nm (resolve_name resolve nm)) with
        | abort => simp [hrest] at h
        | spin => simp [hrest] at h
        | ok tr =>
          obtain ⟨m2, nd2, lines2⟩ := tr
          simp only [hrest, Res.ok.injEq, Prod.mk.injEq] at h
          obtain ⟨-, -, hl⟩ := h
          subst hl
          rcases List.mem_cons.mp hline with h1 | h1
          · exact ⟨dep, nm, hpre, hsn, h1⟩
          · exact ih _ m2 nd2 lines2 hrest line h1
    · simp only [root_deps, if_neg hpre] at h
      exact ih m m' nd lines h line hline

theorem root_deps_new_deps (resolve : Ident → Option Ident) (F : Ident) :
    ∀ deps m m' nd lines, root_deps resolve F deps m = Res.ok (m', nd, lines) →
      ∀ l ∈ nd, ∃ dep, ReportLine.update dep l ∈ lines := by
  intro deps
  induction deps with
  | nil =>
    intro m m' nd lines h l hl
    simp only [root_deps, Res.ok.injEq, Prod.mk.injEq] at h
    obtain ⟨-, hnd, -⟩ := h
    subst hnd
    cases hl
  | cons dep rest ih =>
    intro m m' nd lines h l hl
    by_cases hpre : F.isPrefixOf dep = true
    · simp only [root_deps, if_pos hpre] at h
      cases hsn : short_name dep with
      | none => simp [hsn] at h
      | some nm =>
        simp only [hsn] at h
        cases hrest : root_deps resolve F rest (mapInsert m nm (resolve_name resolve nm)) with
        | abort => simp [hrest] at h
        | spin => simp [hrest] at h
        | ok tr =>
          obtain ⟨m2, nd2, lines2⟩ := tr
          simp only [hrest, Res.ok.injEq, Prod.mk.injEq] at h
          obtain ⟨-, hnd, hli⟩ := h
          subst hnd
          subst hli
          rcases List.mem_cons.mp hl with h1 | h1
          · exact ⟨dep, h1 ▸ List.mem_cons_self _ _⟩
          · obtain ⟨dep', hd'⟩ := ih _ m2 nd2 lines2 hrest l h1
            exact ⟨dep', List.mem_cons_of_mem _ hd'⟩
    · simp only [root_deps, if_neg hpre] at h
      exact ih m m' nd lines h l hl

/-! ## C1: which identifier is recorded as the candidate -/

/-- C1 (amended): only the root's direct dependencies are re-resolved. Every
report line of the root loop pairs the original dependency with the Identity
Resolver's result for its ShortName; inside the recursive subroutine the
resolver is never consulted, and every ledger entry the walker adds records
the raw declared dependency identifier of some fetched package (together
with its ShortName and filter membership). -/
theorem c1_candidate_resolution :
    (∀ (resolve : Ident → Option Ident) (F : Ident) deps m m' nd lines,
        root_deps resolve F deps m = Res.ok (m', nd, lines) →
        ∀ dep l, ReportLine.update dep l ∈ lines →
          ∃ sn, short_name dep = some sn ∧ l = resolve_name resolve sn) ∧
    (∀ (fetch : Ident → Option (List Ident)) (F : Ident) fuel m i m' r,
        check_package fetch F fuel m i = Res.ok (m', r) →
        ∀ p ∈ m', p ∈ m ∨
          ∃ src ds, fetch src = some ds ∧ p.2 ∈ ds ∧ F.isPrefixOf p.2 = true ∧
            short_name p.2 = some p.1) := by
  refine ⟨?_, ?_⟩
  · intro resolve F deps m m' nd lines h dep l hline
    obtain ⟨dep', sn, -, hsn, heq⟩ :=
      root_deps_lines resolve F deps m m' nd lines h _ hline
    obtain ⟨hd, hl⟩ := ReportLine.update.injEq .. ▸ heq
    subst hd
    exact ⟨sn, hsn, hl⟩
  · intro fetch F fuel m i m' r h p hp
    exact check_package_prov fetch F fuel m i m' r h p hp

/-- Witness for C1 on the first concrete graph: the root line for
`a/mid/1/1` carries the resolver's candidate, and the walker-added ledger
entry for `a/lib` is the raw declared `a/lib/1/1` from `a/mid/1/1`'s
dependency list. -/
theorem c1_candidate_resolution_witness :
    (∃ sn, short_name midC1 = some sn ∧ midC1 = resolve_name resolveC1 sn) ∧
    (("a/lib".data, rawLibC1) ∈ ([("a/mid".data, midC1)] : DepsMap) ∨
      ∃ src ds, fetchC1 src = some ds ∧ rawLibC1 ∈ ds ∧
        List.isPrefixOf [] rawLibC1 = true ∧
        short_name rawLibC1 = some "a/lib".data) := by
  constructor
  · exact c1_candidate_resolution.1 resolveC1 [] [midC1] [] [("a/mid".data, midC1)]
      [midC1] [ReportLine.update midC1 midC1] (by decide) midC1 midC1 (by decide)
  · exact c1_candidate_resolution.2 fetchC1 [] 5 [("a/mid".data, midC1)] midC1
      [("a/mid".data, midC1), ("a/lib".data, rawLibC1)] [] (by decide)
      ("a/lib".data, rawLibC1) (by decide)

/-! ## C6, C7: failure handling -/

theorem check_package_fetch_none (fetch : Ident → Option (List Ident)) (F : Ident)
    (fuel : Nat) (m : DepsMap) (i : Ident) (hf : fetch i = none) :
    check_package fetch F (fuel + 1) m i = Res.ok (m, [ReportLine.noMatchFor i]) := by
  simp [check_package, hf]

theorem check_package_succ (fetch : Ident → Option (List Ident)) (F : Ident)
    (fuel : Nat) (m : DepsMap) (i : Ident) (deps : List Ident)
    (hf : fetch i = some deps) :
    check_package fetch F (fuel + 1) m i =
      check_deps F (fun m0 i0 => check_package fetch F fuel m0 i0) i m deps := by
  simp only [check_package, hf]

/-- C6: a dependency-fetch failure below the root is isolated. Fetching a
non-root identifier that fails yields exactly the one
`"No matching package found for .."` line, returns the ledger unchanged and
stops that branch; a failing candidate in the root's new-deps loop
contributes exactly its error line while the remaining sibling branches are
still walked and their lines all appear in the final report; and a failing
dependency met inside the walker's loop likewise leaves the rest of the loop
running from the ledger as the or-insert left it, with every line found by
the siblings appearing after it. Only the root lookup failure ends the whole
invocation (and even that yields a report, `"No matching package found"`). -/
theorem c6_leaf_failure_isolation :
    (∀ (fetch : Ident → Option (List Ident)) (F : Ident) fuel m i, fetch i = none →
        check_package fetch F (fuel + 1) m i =
          Res.ok (m, [ReportLine.noMatchFor i])) ∧
    (∀ (fetch : Ident → Option (List Ident)) (F : Ident) fuel m d rest m3 r3,
        fetch d = none →
        walk_new_deps fetch F (fuel + 1) m rest = Res.ok (m3, r3) →
        walk_new_deps fetch F (fuel + 1) m (d :: rest) =
          Res.ok (m3, ReportLine.noMatchFor d :: r3)) ∧
    (∀ (fetch : Ident → Option (List Ident)) (F : Ident) f m i dep rest m3 r3,
        fetch i = some (dep :: rest) →
        F.isPrefixOf dep = true → ∀ nm, short_name dep = some nm →
        fetch dep = none →
        check_deps F (fun m0 i0 => check_package fetch F (f + 1) m0 i0) i
            (mapOrInsert m nm dep).1 rest = Res.ok (m3, r3) →
        check_package fetch F (f + 1 + 1) m i =
          Res.ok (m3,
            (if (mapOrInsert m nm dep).2 ≠ dep then
                [ReportLine.conflict i (mapOrInsert m nm dep).2 dep]
              else []) ++ ReportLine.noMatchFor dep :: r3)) := by
  refine ⟨?_, ?_, ?_⟩
  · intro fetch F fuel m i hf
    exact check_package_fetch_none fetch F fuel m i hf
  · intro fetch F fuel m d rest m3 r3 hf hrest
    simp only [walk_new_deps, check_package_fetch_none fetch F fuel m d hf, hrest]
    rfl
  · intro fetch F f m i dep rest m3 r3 hfi hpre nm hsn hfd hrest
    have hcp : check_package fetch F (f + 1) (mapOrInsert m nm dep).1 dep =
        Res.ok ((mapOrInsert m nm dep).1, [ReportLine.noMatchFor dep]) :=
      check_package_fetch_none fetch F f (mapOrInsert m nm dep).1 dep hfd
    rw [check_package_succ fetch F (f + 1) m i (dep :: rest) hfi]
    simp only [check_deps, if_pos hpre, hsn, hcp, hrest]
    simp

/-- Witness for C6 on concrete graphs: a failing leaf in the first graph, a
failing candidate ahead of an empty new-deps tail, and a failing dependency
ahead of a healthy sibling in the `fetchC6` graph. -/
theorem c6_leaf_failure_isolation_witness :
    check_package fetchC1 [] 3 [] "z/z/1/1".data =
      Res.ok ([], [ReportLine.noMatchFor "z/z/1/1".data]) ∧
    walk_new_deps fetchC1 [] 3 [] ["z/z/1/1".data] =
      Res.ok ([], [ReportLine.noMatchFor "z/z/1/1".data]) ∧
    check_package fetchC6 [] 3 [] "e/r/1/1".data =
      Res.ok ([("e/x".data, "e/x/1/1".data), ("e/y".data, "e/y/1/1".data)],
        [ReportLine.noMatchFor "e/x/1/1".data]) := by
  refine ⟨c6_leaf_failure_isolation.1 fetchC1 [] 2 [] "z/z/1/1".data (by decide),
    c6_leaf_failure_isolation.2.1 fetchC1 [] 2 [] "z/z/1/1".data [] [] []
      (by decide) (by decide), ?_⟩
  have h := c6_leaf_failure_isolation.2.2 fetchC6 [] 1 [] "e/r/1/1".data
    "e/x/1/1".data ["e/y/1/1".data]
    [("e/x".data, "e/x/1/1".data), ("e/y".data, "e/y/1/1".data)]
    [] (by decide) (by decide) "e/x".data (by decide) (by decide) (by decide)
  simpa using h

/-- C7: when the root name resolves to nothing (the graph knows no version
for it and no package is stored under the identifier itself), the
invocation reports exactly `"No matching package found"`; the walk never
starts and no further output is produced. -/
theorem c7_root_not_found (fetch : Ident → Option (List Ident))
    (resolve : Ident → Option Ident) (fuel : Nat) (name F : Ident)
    (h2 : (splitSlash name).length = 2) (hres : resolve name = none)
    (hf : fetch name = none) :
    do_check fetch resolve fuel name F = Res.ok ([], [ReportLine.noMatch]) := by
  have hid : resolve_name resolve name = name := by
    unfold resolve_name
    rw [if_pos h2, hres]
  simp [do_check, hid, hf]

/-- Witness for C7 at the short name `n/n`, unknown to the first concrete
graph both as a lineage and as a package. -/
theorem c7_root_not_found_witness :
    (splitSlash "n/n".data).length = 2 ∧ resolveC1 "n/n".data = none ∧
      fetchC1 "n/n".data = none ∧
      do_check fetchC1 resolveC1 3 "n/n".data [] = Res.ok ([], [ReportLine.noMatch]) :=
  ⟨by decide, by decide, by decide,
    c7_root_not_found fetchC1 resolveC1 3 "n/n".data [] (by decide) (by decide) (by decide)⟩

/-! ## C5: the filter is applied before any report, resolution or recursion -/

theorem check_deps_lines {F : Ident} {cp : DepsMap → Ident → Res (DepsMap × List ReportLine)}
    (hcp : ∀ m d m' r, F.isPrefixOf d = true → cp m d = Res.ok (m', r) →
      ∀ line ∈ r, dep_line F line)
    {ident : Ident} :
    ∀ deps m m' r, check_deps F cp ident m deps = Res.ok (m', r) →
      ∀ line ∈ r, dep_line F line := by
  intro deps
  induction deps with
  | nil =>
    intro m m' r h line hline
    simp only [check_deps, Res.ok.injEq, Prod.mk.injEq] at h
    obtain ⟨-, hr⟩ := h
    subst hr
    cases hline
  | cons dep rest ih =>
    intro m m' r h line hline
    by_cases hpre : F.isPrefixOf dep = true
    · simp only [check_deps, if_pos hpre] at h
      cases hsn : short_name dep with
      | none => simp [hsn] at h
      | some nm =>
        simp only [hsn] at h
        cases hres : cp (mapOrInsert m nm dep).1 dep with
        | abort => simp [hres] at h
        | spin => simp [hres] at h
        | ok pr =>
          obtain ⟨m2, r2⟩ := pr
          simp only [hres] at h
          cases hrest : check_deps F cp ident m2 rest with
          | abort => simp [hrest] at h
          | spin => simp [hrest] at h
          | ok pr2 =>
            obtain ⟨m3, r3⟩ := pr2
            simp only [hrest, Res.ok.injEq, Prod.mk.injEq] at h
            obtain ⟨-, hr⟩ := h
            subst hr
            rcases List.mem_append.mp hline with h1 | h3
            · rcases List.mem_append.mp h1 with h1a | h2
              · by_cases hc : (mapOrInsert m nm dep).2 ≠ dep
                · rw [if_pos hc] at h1a
                  simp only [List.mem_singleton] at h1a
                  subst h1a
                  exact Or.inl ⟨ident, (mapOrInsert m nm dep).2, dep, rfl, hpre⟩
                · rw [if_neg hc] at h1a
                  cases h1a
              · exact hcp _ _ _ _ hpre hres line h2
            · exact ih m2 m3 r3 hrest line h3
    · simp only [check_deps, if_neg hpre] at h
      exact ih m m' r h line hline

theorem check_package_lines (fetch : Ident → Option (List Ident)) (F : Ident) :
    ∀ fuel m i m' r, check_package fetch F fuel m i = Res.ok (m', r) →
      ∀ line ∈ r, dep_line F line ∨ line = ReportLine.noMatchFor i := by
  intro fuel
  induction fuel with
  | zero =>
    intro m i m' r h
    simp [check_package] at h
  | succ n ih =>
    intro m i m' r h line hline
    cases hf : fetch i with
    | none =>
      simp only [check_package, hf, Res.ok.injEq, Prod.mk.injEq] at h
      obtain ⟨-, hr⟩ := h
      subst hr
      simp only [List.mem_singleton] at hline
      exact Or.inr hline
    | some deps =>
      simp only [check_package, hf] at h
      refine Or.inl (check_deps_lines ?_ deps m m' r h line hline)
      intro m0 d m1 r1 hd h0 line0 hline0
      rcases ih m0 d m1 r1 h0 line0 hline0 with h2 | h2
      · exact h2
      · exact Or.inr ⟨d, h2, hd⟩

theorem walk_new_deps_lines (fetch : Ident → Option (List Ident)) (F : Ident)
    (fuel : Nat) :
    ∀ nds m m' r, walk_new_deps fetch F fuel m nds = Res.ok (m', r) →
      ∀ line ∈ r, dep_line F line ∨ ∃ j, line = ReportLine.noMatchFor j ∧ j ∈ nds := by
  intro nds
  induction nds with
  | nil =>
    intro m m' r h line hline
    simp only [walk_new_deps, Res.ok.injEq, Prod.mk.injEq] at h
    obtain ⟨-, hr⟩ := h
    subst hr
    cases hline
  | cons d rest ih =>
    intro m m' r h line hline
    cases hres : check_package fetch F fuel m d with
    | abort => simp only [walk_new_deps, hres] at h; cases h
    | spin => simp only [walk_new_deps, hres] at h; cases h
    | ok pr =>
      obtain ⟨m2, r2⟩ := pr
      simp only [walk_new_deps, hres] at h
      cases hrest : walk_new_deps fetch F fuel m2 rest with
      | abort => simp only [hrest] at h; cases h
      | spin => simp only [hrest] at h; cases h
      | ok pr2 =>
        obtain ⟨m3, r3⟩ := pr2
        simp only [hrest, Res.ok.injEq, Prod.mk.injEq] at h
        obtain ⟨-, hr⟩ := h
        subst hr
        rcases List.mem_append.mp hline with h1 | h1
        · rcases check_package_lines fetch F fuel m d m2 r2 hres line h1 with h2 | h2
          · exact Or.inl h2
          · exact Or.inr ⟨d, h2, List.mem_cons_self _ _⟩
        · rcases ih m2 m3 r3 hrest line h1 with h2 | ⟨j, hj, hjm⟩
          · exact Or.inl h2
          · exact Or.inr ⟨j, hj, List.mem_cons_of_mem _ hjm⟩

theorem do_check_lines (fetch : Ident → Option (List Ident))
    (resolve : Ident → Option Ident) (fuel : Nat) (name F : Ident) :
    ∀ m' r, do_check fetch resolve fuel name F = Res.ok (m', r) →
      ∀ line ∈ r, line_filtered F r line := by
  intro m' r h line hline
  unfold do_check at h
  cases hf : fetch (resolve_name resolve name) with
  | none =>
    simp only [hf, Res.ok.injEq, Prod.mk.injEq] at h
    obtain ⟨-, hr⟩ := h
    subst hr
    simp only [List.mem_singleton] at hline
    subst hline
    trivial
  | some deps =>
    simp only [hf] at h
    cases hroot : root_deps resolve F deps [] with
    | abort => simp only [hroot] at h; cases h
    | spin => simp only [hroot] at h; cases h
    | ok tr =>
      obtain ⟨m0, nd, lines⟩ := tr
      simp only [hroot] at h
      cases hwalk : walk_new_deps fetch F fuel m0 nd with
      | abort => simp only [hwalk] at h; cases h
      | spin => simp only [hwalk] at h; cases h
      | ok pr =>
        obtain ⟨m1, lines'⟩ := pr
        simp only [hwalk, Res.ok.injEq, Prod.mk.injEq] at h
        obtain ⟨-, hr⟩ := h
        subst hr
        rcases List.mem_append.mp hline with h1 | h1
        · obtain ⟨dep, sn, hpre, -, hl⟩ :=
            root_deps_lines resolve F deps [] m0 nd lines hroot line h1
          subst hl
          exact hpre
        · rcases walk_new_deps_lines fetch F fuel nd m0 m1 lines' hwalk line h1 with
            h2 | ⟨j, hj, hjm⟩
          · rcases h2 with ⟨a, b, d, hl, hd⟩ | ⟨j, hl, hj⟩
            · subst hl; exact hd
            · subst hl; exact Or.inl hj
          · subst hj
            obtain ⟨dep, hd⟩ := root_deps_new_deps resolve F deps [] m0 nd lines hroot j hjm
            exact Or.inr ⟨dep, j, List.mem_append_left _ hd, rfl⟩

/-- C5: a dependency edge failing the filter is skipped entirely — at the
root it produces no line, is not resolved and adds nothing to the ledger or
the recursion list, and in the walker it is neither recorded nor recursed
into; every line of a full report is attributed to a filter-passing edge in
the sense of `line_filtered`; and the empty filter accepts every
dependency. -/
theorem c5_filter_exclusivity :
    (∀ (resolve : Ident → Option Ident) (F dep : Ident) rest m,
        F.isPrefixOf dep = false →
        root_deps resolve F (dep :: rest) m = root_deps resolve F rest m) ∧
    (∀ (F : Ident) (cp : DepsMap → Ident → Res (DepsMap × List ReportLine))
        (ident dep : Ident) rest m, F.isPrefixOf dep = false →
        check_deps F cp ident m (dep :: rest) = check_deps F cp ident m rest) ∧
    (∀ (fetch : Ident → Option (List Ident)) (resolve : Ident → Option Ident)
        (fuel : Nat) (name F : Ident) m' r,
        do_check fetch resolve fuel name F = Res.ok (m', r) →
        ∀ line ∈ r, line_filtered F r line) ∧
    (∀ dep : Ident, List.isPrefixOf ([] : Ident) dep = true) := by
  refine ⟨?_, ?_, ?_, ?_⟩
  · intro resolve F dep rest m h
    simp [root_deps, h]
  · intro F cp ident dep rest m h
    simp [check_deps, h]
  · intro fetch resolve fuel name F m' r h
    exact do_check_lines fetch resolve fuel name F m' r h
  · intro dep
    cases dep with
    | nil => rfl
    | cons a l => rfl

/-- Witness for C5: the edge to `other/thing/1/1` is skipped by the filter
`a/` at the root and in the walker, and in a filtered concrete run the
reported line passes the filter. -/
theorem c5_filter_exclusivity_witness :
    root_deps resolveC1 "a/".data ["other/thing/1/1".data] [] =
      root_deps resolveC1 "a/".data [] [] ∧
    check_deps "a/".data (fun m0 i0 => check_package fetchC1 "a/".data 3 m0 i0)
        rootC1 [] ["other/thing/1/1".data] =
      check_deps "a/".data (fun m0 i0 => check_package fetchC1 "a/".data 3 m0 i0)
        rootC1 [] [] ∧
    line_filtered "a/".data [ReportLine.update midC1 midC1]
      (ReportLine.update midC1 midC1) := by
  refine ⟨c5_filter_exclusivity.1 resolveC1 "a/".data "other/thing/1/1".data [] []
      (by decide),
    c5_filter_exclusivity.2.1 "a/".data
      (fun m0 i0 => check_package fetchC1 "a/".data 3 m0 i0) rootC1
      "other/thing/1/1".data [] [] (by decide), ?_⟩
  exact c5_filter_exclusivity.2.2.1 fetchC1 resolveC1 5 rootC1 "a/".data
    [("a/mid".data, midC1), ("a/lib".data, rawLibC1)]
    [ReportLine.update midC1 midC1] (by decide)
    (ReportLine.update midC1 midC1) (by decide)

/-! ## C3: when a ShortName never disagrees, no conflict is reported for it -/

theorem check_deps_uniform {F : Ident}
    {cp : DepsMap → Ident → Res (DepsMap × List ReportLine)} {S A : Ident}
    (hcp : ∀ m i m' r, (∀ v, (S, v) ∈ m → v = A) → cp m i = Res.ok (m', r) →
      (∀ v, (S, v) ∈ m' → v = A) ∧
      ∀ a b d, ReportLine.conflict a b d ∈ r → short_name d ≠ some S)
    {ident : Ident} :
    ∀ deps m m' r,
      (∀ d ∈ deps, short_name d = some S → d = A) →
      (∀ v, (S, v) ∈ m → v = A) →
      check_deps F cp ident m deps = Res.ok (m', r) →
      (∀ v, (S, v) ∈ m' → v = A) ∧
      (∀ a b d, ReportLine.conflict a b d ∈ r → short_name d ≠ some S) := by
  intro deps
  induction deps with
  | nil =>
    intro m m' r hd hS h
    simp only [check_deps, Res.ok.injEq, Prod.mk.injEq] at h
    obtain ⟨hm, hr⟩ := h
    subst hm
    subst hr
    exact ⟨hS, fun a b d hmem => absurd hmem (List.not_mem_nil _)⟩
  | cons dep rest ih =>
    intro m m' r hd hS h
    by_cases hpre : F.isPrefixOf dep = true
    · simp only [check_deps, if_pos hpre] at h
      cases hsn : short_name dep with
      | none => simp [hsn] at h
      | some nm =>
        simp only [hsn] at h
        have hS1 : ∀ v, (S, v) ∈ (mapOrInsert m nm dep).1 → v = A := by
          intro v hv
          rcases mapOrInsert_mem hv with h1 | h1
          · exact hS v h1
          · have h1a : S = nm := congrArg Prod.fst h1
            have h1b : v = dep := congrArg Prod.snd h1
            rw [h1b]
            exact hd dep (List.mem_cons_self _ _) (hsn.trans (congrArg some h1a.symm))
        cases hres : cp (mapOrInsert m nm dep).1 dep with
        | abort => simp [hres] at h
        | spin => simp [hres] at h
        | ok pr =>
          obtain ⟨m2, r2⟩ := pr
          simp only [hres] at h
          cases hrest : check_deps F cp ident m2 rest with
          | abort => simp [hrest] at h
          | spin => simp [hrest] at h
          | ok pr2 =>
            obtain ⟨m3, r3⟩ := pr2
            simp only [hrest, Res.ok.injEq, Prod.mk.injEq] at h
            obtain ⟨hm, hr⟩ := h
            subst hm
            subst hr
            obtain ⟨hS2, hr2⟩ := hcp _ _ _ _ hS1 hres
            obtain ⟨hS3, hr3⟩ :=
              ih m2 m3 r3 (fun d hdm => hd d (List.mem_cons_of_mem _ hdm)) hS2 hrest
            refine ⟨hS3, ?_⟩
            intro a b d hmem
            rcases List.mem_append.mp hmem with h1 | h3
            · rcases List.mem_append.mp h1 with h1a | h2
              · -- the line sits in the locally emitted conflict list
                by_cases hnmS : nm = S
                · -- same ShortName: the entry necessarily equals the dep
                  subst hnmS
                  have hdA : dep = A := hd dep (List.mem_cons_self _ _) hsn
                  have hent : (mapOrInsert m nm dep).2 = dep := by
                    cases hl : mapLookup m nm with
                    | some v =>
                      have hv : v = A := hS v (mapLookup_mem hl)
                      simp [mapOrInsert, hl, hv, hdA]
                    | none => simp [mapOrInsert, hl]
                  rw [if_neg (by simp [hent])] at h1a
                  cases h1a
                · -- different ShortName: the line names dep, whose
                  -- ShortName is nm, not S
                  have : ReportLine.conflict a b d =
                      ReportLine.conflict ident (mapOrInsert m nm dep).2 dep := by
                    by_cases hc : (mapOrInsert m nm dep).2 ≠ dep
                    · rw [if_pos hc] at h1a
                      simpa using h1a
                    · rw [if_neg hc] at h1a
                      cases h1a
                  obtain ⟨-, -, hdd⟩ := ReportLine.conflict.injEq .. ▸ this
                  subst hdd
                  rw [hsn]
                  exact fun hh => hnmS (Option.some.injEq .. ▸ hh)
              · exact hr2 a b d h2
            · exact hr3 a b d h3
    · simp only [check_deps, if_neg hpre] at h
      exact ih m m' r (fun d hdm => hd d (List.mem_cons_of_mem _ hdm)) hS h

theorem check_package_uniform (fetch : Ident → Option (List Ident)) (F : Ident)
    (S A : Ident)
    (HA : ∀ src ds, fetch src = some ds → ∀ d ∈ ds, short_name d = some S → d = A) :
    ∀ fuel m i m' r, (∀ v, (S, v) ∈ m → v = A) →
      check_package fetch F fuel m i = Res.ok (m', r) →
      (∀ v, (S, v) ∈ m' → v = A) ∧
      (∀ a b d, ReportLine.conflict a b d ∈ r → short_name d ≠ some S) := by
  intro fuel
  induction fuel with
  | zero =>
    intro m i m' r hS h
    simp [check_package] at h
  | succ n ih =>
    intro m i m' r hS h
    cases hf : fetch i with
    | none =>
      simp only [check_package, hf, Res.ok.injEq, Prod.mk.injEq] at h
      obtain ⟨hm, hr⟩ := h
      subst hm
      subst hr
      refine ⟨hS, ?_⟩
      intro a b d hmem
      simp only [List.mem_singleton] at hmem
      cases hmem
    | some deps =>
      simp only [check_package, hf] at h
      exact check_deps_uniform (fun m0 i0 m1 r1 h0 h1 => ih m0 i0 m1 r1 h0 h1)
        deps m m' r (HA i deps hf) hS h

theorem walk_new_deps_uniform (fetch : Ident → Option (List Ident)) (F : Ident)
    (S A : Ident)
    (HA : ∀ src ds, fetch src = some ds → ∀ d ∈ ds, short_name d = some S → d = A)
    (fuel : Nat) :
    ∀ nds m m' r, (∀ v, (S, v) ∈ m → v = A) →
      walk_new_deps fetch F fuel m nds = Res.ok (m', r) →
      (∀ a b d, ReportLine.conflict a b d ∈ r → short_name d ≠ some S) := by
  intro nds
  induction nds with
  | nil =>
    intro m m' r hS h
    simp only [walk_new_deps, Res.ok.injEq, Prod.mk.injEq] at h
    obtain ⟨-, hr⟩ := h
    subst hr
    exact fun a b d hmem => absurd hmem (List.not_mem_nil _)
  | cons d0 rest ih =>
    intro m m' r hS h
    cases hres : check_package fetch F fuel m d0 with
    | abort => simp only [walk_new_deps, hres] at h; cases h
    | spin => simp only [walk_new_deps, hres] at h; cases h
    | ok pr =>
      obtain ⟨m2, r2⟩ := pr
      simp only [walk_new_deps, hres] at h
      cases hrest : walk_new_deps fetch F fuel m2 rest with
      | abort => simp only [hrest] at h; cases h
      | spin => simp only [hrest] at h; cases h
      | ok pr2 =>
        obtain ⟨m3, r3⟩ := pr2
        simp only [hrest, Res.ok.injEq, Prod.mk.injEq] at h
        obtain ⟨-, hr⟩ := h
        subst hr
        obtain ⟨hS2, hr2⟩ := check_package_uniform fetch F S A HA fuel m d0 m2 r2 hS hres
        have hr3 := ih m2 m3 r3 hS2 hrest
        intro a b d hmem
        rcases List.mem_append.mp hmem with h1 | h1
        · exact hr2 a b d h1
        · exact hr3 a b d h1

/-- C3 (amended): if every dependency edge across the whole closure for a
given ShortName carries one and the same identifier, and the Identity
Resolver also resolves that ShortName to that identifier, then zero
conflicts are reported for that ShortName. (The resolver condition is
necessary: the counterexample run reports a conflict for a ShortName all of
whose edges agree, because the root-level candidate is the resolver's
different latest version.) -/
theorem c3_no_false_conflicts (fetch : Ident → Option (List Ident))
    (resolve : Ident → Option Ident) (fuel : Nat) (name F S A : Ident)
    (HA : ∀ src ds, fetch src = some ds → ∀ d ∈ ds, short_name d = some S → d = A)
    (HR : resolve_name resolve S = A) :
    ∀ m' r, do_check fetch resolve fuel name F = Res.ok (m', r) →
      conflicts_for S r = [] := by
  intro m' r h
  rw [conflicts_for, List.filter_eq_nil_iff]
  suffices hs : ∀ a b d, ReportLine.conflict a b d ∈ r → short_name d ≠ some S by
    intro line hline
    cases line with
    | update dep latest => simp
    | conflict a b d => simpa using hs a b d hline
    | noMatchFor j => simp
    | noMatch => simp
  unfold do_check at h
  cases hf : fetch (resolve_name resolve name) with
  | none =>
    simp only [hf, Res.ok.injEq, Prod.mk.injEq] at h
    obtain ⟨-, hr⟩ := h
    subst hr
    intro a b d hmem
    simp only [List.mem_singleton] at hmem
    cases hmem
  | some deps =>
    simp only [hf] at h
    cases hroot : root_deps resolve F deps [] with
    | abort => simp only [hroot] at h; cases h
    | spin => simp only [hroot] at h; cases h
    | ok tr =>
      obtain ⟨m0, nd, lines⟩ := tr
      simp only [hroot] at h
      cases hwalk : walk_new_deps fetch F fuel m0 nd with
      | abort => simp only [hwalk] at h; cases h
      | spin => simp only [hwalk] at h; cases h
      | ok pr =>
        obtain ⟨m1, lines'⟩ := pr
        simp only [hwalk, Res.ok.injEq, Prod.mk.injEq] at h
        obtain ⟨-, hr⟩ := h
        subst hr
        have hS0 : ∀ v, (S, v) ∈ m0 → v = A := by
          intro v hv
          have hcan := (root_deps_canonical resolve F deps [] m0 nd lines hroot
            (fun p hp => absurd hp (List.not_mem_nil _))).2
          have := hcan (S, v) hv
          simp only at this
          rw [this, HR]
        intro a b d hmem
        rcases List.mem_append.mp hmem with h1 | h1
        · obtain ⟨dep, sn, -, -, hl⟩ :=
            root_deps_lines resolve F deps [] m0 nd lines hroot _ h1
          cases hl
        · exact walk_new_deps_uniform fetch F S A HA fuel nd m0 m1 lines' hS0 hwalk
            a b d h1

/-- Witness for C3 on the uniform concrete graph: all edges for `g/lib`
carry `g/lib/1/1`, the resolver agrees, and the run reports zero conflicts
for `g/lib`. -/
theorem c3_no_false_conflicts_witness :
    conflicts_for "g/lib".data [ReportLine.update gLibW gLibW] = [] := by
  refine c3_no_false_conflicts fetchC3W resolveC3W 5 gRootW [] "g/lib".data gLibW
    ?_ (by decide) [("g/lib".data, gLibW)] [ReportLine.update gLibW gLibW] (by decide)
  intro src ds h d hd hsn
  unfold fetchC3W at h
  by_cases h1 : src = gRootW
  · rw [if_pos h1] at h
    injection h with h
    subst h
    simp only [List.mem_singleton] at hd
    exact hd
  · rw [if_neg h1] at h
    by_cases h2 : src = gLibW
    · rw [if_pos h2] at h
      injection h with h
      subst h
      exact absurd hd (List.not_mem_nil d)
    · rw [if_neg h2] at h
      exact Option.noConfusion h

/-! ## C4: termination behaviour of the recursive subroutine -/

theorem check_deps_no_spin {F : Ident}
    {cp : DepsMap → Ident → Res (DepsMap × List ReportLine)} {ident : Ident} :
    ∀ deps m, (∀ d ∈ deps, F.isPrefixOf d = true → ∀ m0, cp m0 d ≠ Res.spin) →
      check_deps F cp ident m deps ≠ Res.spin := by
  intro deps
  induction deps with
  | nil => intro m hd h; simp [check_deps] at h
  | cons dep rest ih =>
    intro m hd h
    by_cases hpre : F.isPrefixOf dep = true
    · simp only [check_deps, if_pos hpre] at h
      cases hsn : short_name dep with
      | none => simp [hsn] at h
      | some nm =>
        simp only [hsn] at h
        cases hres : cp (mapOrInsert m nm dep).1 dep with
        | abort => simp [hres] at h
        | spin => exact hd dep (List.mem_cons_self _ _) hpre _ hres
        | ok pr =>
          obtain ⟨m2, r2⟩ := pr
          simp only [hres] at h
          cases hrest : check_deps F cp ident m2 rest with
          | abort => simp [hrest] at h
          | spin => exact ih m2 (fun d hdm => hd d (List.mem_cons_of_mem _ hdm)) hrest
          | ok pr2 =>
            obtain ⟨m3, r3⟩ := pr2
            simp [hrest] at h
    · simp only [check_deps, if_neg hpre] at h
      exact ih m (fun d hdm => hd d (List.mem_cons_of_mem _ hdm)) h

theorem check_package_no_spin (fetch : Ident → Option (List Ident)) (F : Ident)
    (rank : Ident → Nat)
    (hrank : ∀ i ds, fetch i = some ds → ∀ d ∈ ds, F.isPrefixOf d = true →
      rank d < rank i) :
    ∀ fuel i m, rank i < fuel → check_package fetch F fuel m i ≠ Res.spin := by
  intro fuel
  induction fuel with
  | zero => intro i m hb; omega
  | succ n ih =>
    intro i m hb h
    cases hf : fetch i with
    | none =>
      rw [check_package_fetch_none fetch F n m i hf] at h
      exact Res.noConfusion h
    | some ds =>
      rw [check_package_succ fetch F n m i ds hf] at h
      refine check_deps_no_spin ds m ?_ h
      intro d hdm hdpre m0
      refine ih d m0 ?_
      have := hrank i ds hf d hdm hdpre
      omega

theorem check_package_cyc_spin :
    ∀ fuel m, check_package fetchC4 [] fuel m cycC4 = Res.spin := by
  intro fuel
  induction fuel with
  | zero => intro m; rfl
  | succ n ih =>
    intro m
    have hpre : List.isPrefixOf [] cycC4 = true := by decide
    have hsn : short_name cycC4 = some "c/c".data := by decide
    rw [check_package_succ fetchC4 [] n m cycC4 [cycC4] (by decide)]
    simp only [check_deps, if_pos hpre, hsn, ih]

/-- C4: the recursive conflict-checking subroutine has no cycle or revisit
guard. Whenever the filter-passing dependency edges admit a decreasing rank
(the standard witness that the filter-passing portion of the graph is
acyclic), the fuel-indexed recursion never exhausts any fuel beyond the
root's rank, i.e. it terminates; and on the concrete one-node cyclic graph
the recursion exhausts every fuel, from every starting ledger — even one in
which the cycling identifier's ShortName is already recorded — i.e. it
never terminates, because each pass re-enters the same identifier
unconditionally. -/
theorem c4_termination :
    (∀ (fetch : Ident → Option (List Ident)) (F : Ident) (rank : Ident → Nat),
        (∀ i ds, fetch i = some ds → ∀ d ∈ ds, F.isPrefixOf d = true →
          rank d < rank i) →
        ∀ fuel i m, rank i < fuel → check_package fetch F fuel m i ≠ Res.spin) ∧
    (∀ fuel m, check_package fetchC4 [] fuel m cycC4 = Res.spin) :=
  ⟨fun fetch F rank hrank => check_package_no_spin fetch F rank hrank,
    check_package_cyc_spin⟩

/-- Witness for C4: the acyclic two-node graph completes within fuel 2,
while the cyclic graph exhausts fuel 7 (and, by the theorem, any other),
even starting from a ledger that already lists the cycling ShortName. -/
theorem c4_termination_witness :
    check_package fetchW4 [] 2 [] rootW4 ≠ Res.spin ∧
    check_package fetchC4 [] 7 [("c/c".data, cycC4)] cycC4 = Res.spin := by
  constructor
  · refine c4_termination.1 fetchW4 [] rankW4 ?_ 2 rootW4 [] (by decide)
    intro i ds h d hd hpre
    unfold fetchW4 at h
    by_cases h1 : i = rootW4
    · rw [if_pos h1] at h
      injection h with h
      subst h
      simp only [List.mem_singleton] at hd
      subst hd
      subst h1
      decide
    · rw [if_neg h1] at h
      by_cases h2 : i = leafW4
      · rw [if_pos h2] at h
        injection h with h
        subst h
        exact absurd hd (List.not_mem_nil d)
      · rw [if_neg h2] at h
        exact Option.noConfusion h
  · exact c4_termination.2 7 [("c/c".data, cycC4)]

/-! ## C8, C9: the identity-resolution rule -/

/-- C8: for every input string that already has the 4-part full-identifier
shape, `resolve_name` returns it unchanged, for every possible graph
resolver (so in particular without consulting the graph). -/
theorem c8_resolve_idempotent (resolve : Ident → Option Ident) (name : Ident)
    (h : (splitSlash name).length = 4) : resolve_name resolve name = name := by
  unfold resolve_name
  rw [if_neg]
  omega

/-- Witness for C8 at the concrete full identifier `a/b/1/1`. -/
theorem c8_resolve_idempotent_witness :
    (splitSlash "a/b/1/1".data).length = 4 ∧
      resolve_name resolveC1 "a/b/1/1".data = "a/b/1/1".data :=
  ⟨by decide, c8_resolve_idempotent resolveC1 "a/b/1/1".data (by decide)⟩

/-- C9: for every 2-part input on which the graph resolver has no entry,
`resolve_name` returns the original input unchanged rather than an error. -/
theorem c9_resolve_noop (resolve : Ident → Option Ident) (name : Ident)
    (h2 : (splitSlash name).length = 2) (hn : resolve name = none) :
    resolve_name resolve name = name := by
  unfold resolve_name
  rw [if_pos h2, hn]

/-- Witness for C9 at the concrete short name `z/q`, absent from the
first concrete graph. -/
theorem c9_resolve_noop_witness :
    (splitSlash "z/q".data).length = 2 ∧ resolveC1 "z/q".data = none ∧
      resolve_name resolveC1 "z/q".data = "z/q".data :=
  ⟨by decide, by decide, c9_resolve_noop resolveC1 "z/q".data (by decide) (by decide)⟩

/-! ## C10: totality of the ShortName computation -/

/-- C10: `short_name` succeeds exactly on identifiers containing a slash,
returning the first two slash-separated parts joined by a slash; on a
dependency identifier without a slash the assertion fails, and the whole
`check` invocation aborts (both when the offending dependency is met inside
the recursive walk and at the root), producing no report. -/
theorem c10_short_name_totality :
    (∀ ident : Ident, '/' ∈ ident →
        ∃ p0 p1 rest, splitSlash ident = p0 :: p1 :: rest ∧
          short_name ident = some (p0 ++ '/' :: p1)) ∧
    (∀ ident : Ident, '/' ∉ ident → short_name ident = none) ∧
    (∀ (fetch : Ident → Option (List Ident)) (F : Ident) fuel m i dep rest,
        fetch i = some (dep :: rest) → F.isPrefixOf dep = true → '/' ∉ dep →
        check_package fetch F (fuel + 1) m i = Res.abort) ∧
    (∀ (fetch : Ident → Option (List Ident)) (resolve : Ident → Option Ident)
        (fuel : Nat) (name F dep : Ident) (rest : List Ident),
        fetch (resolve_name resolve name) = some (dep :: rest) →
        F.isPrefixOf dep = true → '/' ∉ dep →
        do_check fetch resolve fuel name F = Res.abort) := by
  have hsome : ∀ ident : Ident, '/' ∈ ident →
      ∃ p0 p1 rest, splitSlash ident = p0 :: p1 :: rest ∧
        short_name ident = some (p0 ++ '/' :: p1) := by
    intro ident h
    have hlen := two_le_length_splitSlash h
    cases hh : splitSlash ident with
    | nil => exact absurd hh (splitSlash_ne_nil ident)
    | cons p0 t =>
      cases t with
      | nil => rw [hh] at hlen; simp at hlen
      | cons p1 rest =>
        exact ⟨p0, p1, rest, rfl, by simp [short_name, hh]⟩
  have hnone : ∀ ident : Ident, '/' ∉ ident → short_name ident = none := by
    intro ident h
    simp [short_name, splitSlash_of_not_mem h]
  refine ⟨hsome, hnone, ?_, ?_⟩
  · intro fetch F fuel m i dep rest hf hpre hns
    simp [check_package, hf, check_deps, hpre, hnone dep hns]
  · intro fetch resolve fuel name F dep rest hf hpre hns
    unfold do_check
    simp only [hf]
    have : root_deps resolve F (dep :: rest) [] = Res.abort := by
      simp [root_deps, hpre, hnone dep hns]
    simp [this]

/-- Witness for C10: the identifier `x/y` splits, the slash-free `noslash`
does not, and a slash-free dependency aborts a concrete `check` run. -/
theorem c10_short_name_totality_witness :
    (∃ p0 p1 rest, splitSlash "x/y".data = p0 :: p1 :: rest ∧
        short_name "x/y".data = some (p0 ++ '/' :: p1)) ∧
    short_name "noslash".data = none ∧
    check_package (fun i => if i = rootC1 then some ["noslash".data] else none)
        [] 3 [] rootC1 = Res.abort :=
  ⟨c10_short_name_totality.1 "x/y".data (by decide),
   c10_short_name_totality.2.1 "noslash".data (by decide),
   c10_short_name_totality.2.2.1
     (fun i => if i = rootC1 then some ["noslash".data] else none)
     [] 2 [] rootC1 "noslash".data [] (by simp) (by decide) (by decide)⟩
